import Mathlib

/-!
Shallow embedding of the numeric post-processing routines of `basic2.go`
(repository `kshedden/ivbss`), together with theorems settling the frozen
claims about them.

Modelling conventions:
* Go `float64` values are modelled by exact arithmetic: `ℚ` where the code
  only adds, divides and compares (so that values are computable), and `ℝ`
  where the code takes square roots or fractional powers.
* Go slices are modelled by `List` or, for accumulator arrays indexed by
  cell number, by functions `ℕ → _` updated with `Function.update`.
* Accumulation loops become structural folds or `Finset.range` sums.
* A Go runtime panic (out-of-range slice bounds) is modelled by `Option`:
  `none` is the panic.
-/

namespace Ivbss

/-- Constant `minCount` from the source: threshold on a cell's
observation count in `heatMap`. -/
def minCount : ℕ := 100

/-- Constant `nrow` from the source: number of grid rows. -/
def nrow : ℕ := 100

/-- Constant `ncol` from the source: number of grid columns. -/
def ncol : ℕ := 100

/-!
### `cormat` (converting a covariance matrix to a correlation matrix)

The Go code computes `s[i] = sqrt(x[i*p+i])` and then
`y[i] = x[i] / (s[i/p] * s[i%p])` over the flattened `p × p` matrix.
-/

/-- Embedding of `cormat`: the flattened matrix is a function from flat
index to value; entry `i` is divided by `s[i/p] * s[i%p]` where
`s[j] = sqrt(x[j*p+j])`. -/
noncomputable def cormat (x : ℕ → ℝ) (p : ℕ) : ℕ → ℝ := fun i =>
  x i / (Real.sqrt (x ((i / p) * p + i / p)) * Real.sqrt (x ((i % p) * p + i % p)))

/-!
### `standardize` (normalizing a direction vector by a quadratic form)

The Go code accumulates `v = Σ_{i<p} Σ_{j≤i} c · vec[i]·vec[j]·mat[i*p+j]`
with `c = 1` on the diagonal and `c = 2` off it, then scales `vec` by
`1/sqrt(v)` in place.
-/

/-- The lower-triangle accumulation computed by the loop in `standardize`:
diagonal terms once, strictly-lower terms twice. -/
noncomputable def quadLower (p : ℕ) (vec mat : ℕ → ℝ) : ℝ :=
  ∑ i in Finset.range p, ∑ j in Finset.range (i + 1),
    (if j = i then 1 else 2) * (vec i * vec j * mat (i * p + j))

/-- The full quadratic form `Σ_i Σ_j vec[i]·vec[j]·mat[i*p+j]` (used by the
spec to state properties of `standardize`, and to express positive
semi-definiteness). -/
noncomputable def quadForm (p : ℕ) (vec mat : ℕ → ℝ) : ℝ :=
  ∑ i in Finset.range p, ∑ j in Finset.range p, vec i * vec j * mat (i * p + j)

/-- Embedding of `standardize`: the returned vector is the input vector
scaled by `1/sqrt(quadLower)` (the Go code does this in place via
`floats.Scale`). -/
noncomputable def standardize (p : ℕ) (vec mat : ℕ → ℝ) : ℕ → ℝ := fun i =>
  (1 / Real.sqrt (quadLower p vec mat)) * vec i

/-!
### `getBrakeProb` (local braking-probability estimate)

The Go code argsorts `sc` (note: `floats.Argsort` sorts its first argument
in place), reorders `br` accordingly, accumulates window counts into `z`,
divides by `2w` and returns the slices `sc[w : N-w]`, `z[w : N-w]`.
Taking a slice with `w > N-w` panics at runtime; this is modelled by
`none`.
-/

/-- Ordering on (score, original index) pairs used to model
`floats.Argsort`: compare by score. -/
def pairLe (a b : ℚ × ℕ) : Prop := a.1 ≤ b.1

instance : DecidableRel pairLe := fun a b => inferInstanceAs (Decidable (a.1 ≤ b.1))

instance : IsTotal (ℚ × ℕ) pairLe := ⟨fun a b => le_total a.1 b.1⟩

instance : IsTrans (ℚ × ℕ) pairLe := ⟨fun _ _ _ h1 h2 => le_trans h1 h2⟩

/-- The (score, original index) pairs sorted by score, modelling the
result of `floats.Argsort(sc, ii)`: the first components are the sorted
scores, the second components are the permutation `ii`. -/
def sortPairs (sc : List ℚ) : List (ℚ × ℕ) :=
  List.insertionSort pairLe (sc.zip (List.range sc.length))

/-- Contents of the array `sc` after `floats.Argsort(sc, ii)` has run:
`Argsort` sorts its first argument in place, so after `getBrakeProb`
returns, the caller's `sc` holds its original values in ascending order. -/
def sortedScores (sc : List ℚ) : List ℚ := (sortPairs sc).map Prod.fst

/-- The reordered outcome array `b`: `b[k] = br[ii[k]]`, built into a fresh
slice by the `append` loop in the source. -/
def reorderedBr (sc br : List ℚ) : List ℚ :=
  (sortPairs sc).map (fun pr => br.getD pr.2 0)

/-- One execution of the inner loop of `getBrakeProb`: increment `z[j]`
for every `j` in the half-open window `[i-w, i+w)`. -/
def windowBump (w i : ℕ) (z : ℕ → ℚ) : ℕ → ℚ := fun j =>
  if i - w ≤ j ∧ j < i + w then z j + 1 else z j

/-- The outer accumulation loop of `getBrakeProb`: for each index `i` in
the iteration list, if `b[i] = 1` then bump the window around `i`. -/
def brakeAccum (b : ℕ → ℚ) (w : ℕ) : List ℕ → (ℕ → ℚ) → ℕ → ℚ
  | [], z => z
  | i :: is, z => brakeAccum b w is (if b i = 1 then windowBump w i z else z)

/-- The accumulator array `z` of `getBrakeProb` after the double loop:
the loop runs `i` from `w` while `i < N - w`. -/
def brakeZ (sc br : List ℚ) (w : ℕ) : ℕ → ℚ :=
  brakeAccum (fun i => (reorderedBr sc br).getD i 0) w
    (List.range' w (sc.length - 2 * w)) (fun _ => 0)

/-- The normalized accumulator of `getBrakeProb`: every entry of `z` is
divided by `2w`. -/
def brakeNorm (sc br : List ℚ) (w : ℕ) : List ℚ :=
  (List.range sc.length).map (fun j => brakeZ sc br w j / (2 * w))

/-- Embedding of `getBrakeProb`: returns the trimmed sorted scores and the
trimmed normalized accumulator (`sc[w:N-w]`, `z[w:N-w]`).  When
`2w > N` the slice expression `sc[w : N-w]` has inverted bounds and the
Go program panics; this is `none`. -/
def getBrakeProb (sc br : List ℚ) (w : ℕ) : Option (List ℚ × List ℚ) :=
  if 2 * w ≤ sc.length then
    some (((sortedScores sc).drop w).take (sc.length - 2 * w),
          ((brakeNorm sc br w).drop w).take (sc.length - 2 * w))
  else none

/-!
### `heatMap` (per-cell event-rate surface)

The Go code walks the parallel arrays once, incrementing `denom[cell]`
(and `num[cell]` when `y[i] == 1`) for in-bounds observations and the
`missed` counter otherwise, then maps cells with `denom > minCount` to
`(num/denom)^0.1` and all others to `-1`.  An observation is the triple
`(row[i], col[i], y[i])`; the parallel input arrays are modelled as one
list of such triples.
-/

/-- State threaded through the first loop of `heatMap`. -/
structure HeatState where
  missed : ℕ
  hit : ℕ
  num : ℕ → ℚ
  denom : ℕ → ℕ

/-- The in-bounds test of `heatMap`:
`row[i] >= 0 && col[i] >= 0 && row[i] < nrow && col[i] < ncol`. -/
def inBounds (o : ℤ × ℤ × ℚ) : Prop :=
  0 ≤ o.1 ∧ 0 ≤ o.2.1 ∧ o.1 < (nrow : ℤ) ∧ o.2.1 < (ncol : ℤ)

instance (o : ℤ × ℤ × ℚ) : Decidable (inBounds o) :=
  inferInstanceAs (Decidable (_ ∧ _ ∧ _ ∧ _))

/-- Flat cell index `ncol*row[i] + col[i]` of an observation. -/
def cellOf (o : ℤ × ℤ × ℚ) : ℕ := ncol * o.1.toNat + o.2.1.toNat

/-- One iteration of the accumulation loop of `heatMap`. -/
def heatStep (s : HeatState) (o : ℤ × ℤ × ℚ) : HeatState :=
  if inBounds o then
    { missed := s.missed
      hit := s.hit + 1
      num := if o.2.2 = 1 then Function.update s.num (cellOf o) (s.num (cellOf o) + 1)
             else s.num
      denom := Function.update s.denom (cellOf o) (s.denom (cellOf o) + 1) }
  else
    { s with missed := s.missed + 1 }

/-- Initial state of the `heatMap` loop: all counters zero. -/
def heatInit : HeatState := ⟨0, 0, fun _ => 0, fun _ => 0⟩

/-- The state after the accumulation loop of `heatMap`. -/
def heatLoop (obs : List (ℤ × ℤ × ℚ)) : HeatState := obs.foldl heatStep heatInit

/-- The output `rat` array of `heatMap`: cells whose count exceeds
`minCount` get `(num/denom)^0.1`, all others the sentinel `-1`. -/
noncomputable def heatRat (obs : List (ℤ × ℤ × ℚ)) : ℕ → ℝ := fun q =>
  if minCount < (heatLoop obs).denom q then
    Real.rpow (((heatLoop obs).num q : ℝ) / ((heatLoop obs).denom q : ℝ)) 0.1
  else -1

/-!
### `standardizeCellMeans` (centering and scaling cell-mean vectors)

The Go code computes the count-weighted mean `v` of the populated cells'
vectors, subtracts `v` from **every** cell's vector in place, computes the
count-weighted per-dimension second moment of the (centered) populated
cells, and divides every cell's vector elementwise by its square root.
Cell-mean collections are modelled as functions `cell → dimension → ℝ`
over `M = nrow*ncol` cells.
-/

/-- The weight `w` accumulated in `standardizeCellMeans`: total count over
populated cells (guard `cmc[i] > 0` as in the source). -/
noncomputable def popWeight (cmc : ℕ → ℕ) (M : ℕ) : ℝ :=
  ∑ q in Finset.range M, if 0 < cmc q then (cmc q : ℝ) else 0

/-- The count-weighted global mean vector `v` of the centering step
(summed over populated cells only, then scaled by `1/w`). -/
noncomputable def globalMean (cmn : ℕ → ℕ → ℝ) (cmc : ℕ → ℕ) (M : ℕ) (k : ℕ) : ℝ :=
  (∑ q in Finset.range M, if 0 < cmc q then (cmc q : ℝ) * cmn q k else 0) / popWeight cmc M

/-- The centering step of `standardizeCellMeans`: `floats.Sub(u, v)` runs
over **every** cell `u`, populated or not. -/
noncomputable def centerCellMeans (cmn : ℕ → ℕ → ℝ) (cmc : ℕ → ℕ) (M : ℕ) : ℕ → ℕ → ℝ :=
  fun q k => cmn q k - globalMean cmn cmc M k

/-- The count-weighted per-dimension second moment computed by the scaling
step (over populated cells, then scaled by `1/w`). -/
noncomputable def globalVar (cmn : ℕ → ℕ → ℝ) (cmc : ℕ → ℕ) (M : ℕ) (k : ℕ) : ℝ :=
  (∑ q in Finset.range M, if 0 < cmc q then (cmc q : ℝ) * cmn q k ^ 2 else 0) / popWeight cmc M

/-- Embedding of `standardizeCellMeans`: center every cell, then divide
every cell elementwise by `sqrt` of the weighted second moment of the
centered populated cells. -/
noncomputable def standardizeCellMeans (cmn : ℕ → ℕ → ℝ) (cmc : ℕ → ℕ) (M : ℕ) : ℕ → ℕ → ℝ :=
  fun q k => centerCellMeans cmn cmc M q k /
    Real.sqrt (globalVar (centerCellMeans cmn cmc M) cmc M k)

/-!
### Helper lemmas about `getBrakeProb`
-/

/-- Pointwise description of the double loop of `getBrakeProb`: entry `j`
of the accumulator gains one unit for every loop index `i` with
`b[i] = 1` whose window `[i-w, i+w)` contains `j`. -/
theorem brakeAccum_apply (b : ℕ → ℚ) (w : ℕ) (l : List ℕ) (z : ℕ → ℚ) (j : ℕ) :
    brakeAccum b w l z j
      = z j + (l.countP (fun i => decide (b i = 1 ∧ i - w ≤ j ∧ j < i + w)) : ℚ) := by
  induction l generalizing z with
  | nil => simp [brakeAccum]
  | cons i is ih =>
    rw [brakeAccum, ih, List.countP_cons]
    by_cases hb : b i = 1
    · rw [if_pos hb]
      simp only [windowBump]
      by_cases hwj : i - w ≤ j ∧ j < i + w
      · rw [if_pos hwj, if_pos (by simp only [decide_eq_true_eq]; exact ⟨hb, hwj⟩)]
        push_cast
        ring
      · rw [if_neg hwj, if_neg (by simp only [decide_eq_true_eq]; exact fun h => hwj h.2)]
        push_cast
        ring
    · rw [if_neg hb, if_neg (by simp only [decide_eq_true_eq]; exact fun h => hb h.1)]
      push_cast
      ring

/-- Counting over `List.range'` as a `Finset.Ico` sum. -/
theorem countP_range' (p : ℕ → Bool) (a : ℕ) : ∀ n : ℕ,
    (List.range' a n).countP p = ∑ i in Finset.Ico a (a + n), if p i then 1 else 0
  | 0 => by simp
  | n + 1 => by
    rw [List.range'_concat, List.countP_append, countP_range' p a n,
      show a + (n + 1) = (a + n) + 1 from rfl,
      Finset.sum_Ico_succ_top (Nat.le_add_right a n)]
    simp [List.countP_cons]

/-- The reordered outcome array has the same length as the score array. -/
theorem reorderedBr_length (sc br : List ℚ) :
    (reorderedBr sc br).length = sc.length := by
  simp [reorderedBr, sortPairs, (List.perm_insertionSort pairLe _).length_eq]

/-- Every element of the reordered outcome array is `1` when the outcome
array is constantly `1`. -/
theorem mem_reorderedBr_ones (sc : List ℚ) (x : ℚ)
    (hx : x ∈ reorderedBr sc (List.replicate sc.length 1)) : x = 1 := by
  rcases List.mem_map.mp hx with ⟨pr, hpr, rfl⟩
  obtain ⟨p1, p2⟩ := pr
  have h2 : (p1, p2) ∈ sc.zip (List.range sc.length) :=
    (List.perm_insertionSort pairLe _).subset hpr
  have h3 : p2 ∈ List.range sc.length := (List.of_mem_zip h2).2
  simp [List.getD_eq_getElem?_getD, List.getElem?_replicate_of_lt (List.mem_range.mp h3)]

/-- Entries of the reordered all-ones outcome array, read through `getD`. -/
theorem reorderedBr_ones_getD (sc : List ℚ) (i : ℕ) (hi : i < sc.length) :
    (reorderedBr sc (List.replicate sc.length 1)).getD i 0 = 1 := by
  have hlen : (reorderedBr sc (List.replicate sc.length 1)).length = sc.length :=
    reorderedBr_length sc _
  rw [List.getD_eq_getElem _ 0 (by omega)]
  exact mem_reorderedBr_ones sc _ (List.getElem_mem (by omega))

/-- In the interior of the index range, the accumulator of `getBrakeProb`
on an all-ones outcome array is exactly `2w`: the window hit count is
full there. -/
theorem brakeZ_ones_interior (sc : List ℚ) (w j : ℕ) (hw : 1 ≤ w)
    (hN : 2 * w < sc.length) (hj1 : 2 * w ≤ j + 1) (hj2 : j + 2 * w + 1 ≤ sc.length) :
    brakeZ sc (List.replicate sc.length 1) w j = 2 * (w : ℚ) := by
  rw [brakeZ, brakeAccum_apply, countP_range']
  have hcongr : ∀ i ∈ Finset.Ico w (w + (sc.length - 2 * w)),
      (if (decide (((reorderedBr sc (List.replicate sc.length 1)).getD i 0 = 1)
            ∧ i - w ≤ j ∧ j < i + w) : Bool) then (1 : ℕ) else 0)
        = if i ∈ Finset.Ico (j + 1 - w) (j + w + 1) then 1 else 0 := by
    intro i hi
    rw [Finset.mem_Ico] at hi
    have hiN : i < sc.length := by omega
    rw [reorderedBr_ones_getD sc i hiN]
    by_cases hwin : i - w ≤ j ∧ j < i + w
    · rw [if_pos (by simp only [decide_eq_true_eq]; exact ⟨trivial, hwin⟩),
        if_pos (by rw [Finset.mem_Ico]; omega)]
    · rw [if_neg (by simp only [decide_eq_true_eq]; exact fun h => hwin h.2),
        if_neg (by rw [Finset.mem_Ico]; omega)]
  rw [Finset.sum_congr rfl hcongr, Finset.sum_ite_mem, Finset.sum_const, smul_eq_mul,
    mul_one, Finset.Ico_inter_Ico, max_eq_right (by omega), min_eq_right (by omega),
    Nat.card_Ico]
  have : j + w + 1 - (j + 1 - w) = 2 * w := by omega
  rw [this]
  push_cast
  ring

/-!
### Claim C3
-/

/-- C3 (amended): when `2w > N` the slice expression `sc[w : N-w]` in
`getBrakeProb` has inverted bounds and the program panics (modelled
`none`); when `2w = N` the function silently returns a pair of empty
slices.  In neither case is a descriptive error produced. -/
theorem getBrakeProb_windowError (sc br : List ℚ) (w : ℕ) :
    (sc.length < 2 * w → getBrakeProb sc br w = none)
    ∧ (2 * w = sc.length → getBrakeProb sc br w = some ([], [])) := by
  constructor
  · intro h
    rw [getBrakeProb, if_neg (by omega)]
  · intro h
    rw [getBrakeProb, if_pos (by omega)]
    have h0 : sc.length - 2 * w = 0 := by omega
    simp [h0]

/-- C3 witness: a concrete invocation with `2w > N` panics (is `none`). -/
theorem getBrakeProb_windowError_witness : getBrakeProb [0] [1] 1 = none :=
  (getBrakeProb_windowError [0] [1] 1).1 (by norm_num)

/-- C3 counterexample to the claim as stated: at `N = 2`, `w = 1` the
half-window is incompatible with the length (`2w ≥ N`, empty trimmed
range), yet `getBrakeProb` does not fail: it silently returns empty
slices. -/
theorem getBrakeProb_windowBoundary_silent : getBrakeProb [0, 1] [1, 1] 1 = some ([], []) := by
  simp [getBrakeProb, sortPairs, sortedScores, reorderedBr, brakeNorm, brakeZ, brakeAccum,
    windowBump, List.insertionSort, List.orderedInsert, pairLe, List.range', List.range_succ]

/-!
### Claim C1
-/

/-- C1 counterexample: with `sc = [0,1,2]`, `br = [1,1,1]` and the valid
half-window `w = 1` (so `2w < N`), the returned normalized accumulator
slice is `[1/2]`, not uniformly `1`. -/
theorem getBrakeProb_ones_boundary_ne_one :
    getBrakeProb [0, 1, 2] [1, 1, 1] 1 = some ([1], [1/2]) ∧ ((1 : ℚ)/2) ≠ 1 := by
  constructor
  · simp [getBrakeProb, sortPairs, sortedScores, reorderedBr, brakeNorm, brakeZ, brakeAccum,
      windowBump, List.insertionSort, List.orderedInsert, pairLe, List.range',
      List.range_succ, List.getD, List.getElem?_cons_succ, List.getElem?_cons_zero, Option.getD,
      List.getElem_cons_succ, List.getElem_cons_zero]
    split_ifs with hcond
    · norm_num [windowBump]
    · exact absurd rfl hcond
  · norm_num

/-- C1 (amended): on an all-ones outcome array the entries of the
returned accumulator slice equal `1` at every position `k` that is at
least `w-1` from the left end and at least `2w` from the right end of the
slice (`w ≤ k+1` and `k + 3w + 1 ≤ N`); entries nearer the slice
boundary receive fewer than `2w` window hits and are smaller. -/
theorem getBrakeProb_allOnes_interior (sc br : List ℚ) (w k : ℕ)
    (hw : 1 ≤ w) (hN : 2 * w < sc.length) (hbr : br = List.replicate sc.length 1)
    (hk1 : w ≤ k + 1) (hk2 : k + 3 * w + 1 ≤ sc.length) :
    (getBrakeProb sc br w).map (fun pr => pr.2.getD k 0) = some 1 := by
  subst hbr
  rw [getBrakeProb, if_pos (by omega)]
  rw [Option.map_some']
  have hk : k < sc.length - 2 * w := by omega
  have hwk : w + k < sc.length := by omega
  rw [List.getD_eq_getElem?_getD, List.getElem?_take_of_lt hk, List.getElem?_drop]
  rw [brakeNorm, List.getElem?_map, List.getElem?_range hwk, Option.map_some']
  rw [Option.getD_some]
  rw [brakeZ_ones_interior sc w (w + k) hw hN (by omega) (by omega)]
  have hw0 : (2 : ℚ) * (w : ℚ) ≠ 0 := by
    have : (0 : ℚ) < (w : ℚ) := by exact_mod_cast hw
    positivity
  rw [div_self hw0]

/-- C1 witness: at `sc = [0,1,2,3]`, `br` all ones, `w = 1`, the interior
slice position `k = 0` holds exactly `1`. -/
theorem getBrakeProb_allOnes_interior_witness :
    (getBrakeProb [0, 1, 2, 3] (List.replicate 4 1) 1).map (fun pr => pr.2.getD 0 0)
      = some 1 :=
  getBrakeProb_allOnes_interior [0, 1, 2, 3] (List.replicate 4 1) 1 0 (by norm_num)
    (by norm_num) rfl (by norm_num) (by norm_num)

/-!
### Claim C4
-/

/-- C4 counterexample: `floats.Argsort` sorts `sc` in place, so after
`getBrakeProb([1,0], br, w)` the caller's score array holds `[0,1]`,
not its original values `[1,0]`. -/
theorem getBrakeProb_mutates_sc :
    sortedScores [1, 0] = [0, 1] ∧ ([0, 1] : List ℚ) ≠ [1, 0] := by
  exact ⟨rfl, by decide⟩

/-- C4 (amended): `getBrakeProb` does not mutate `br` (the reordered copy
is appended into a fresh slice), but it sorts `sc` in place: after the
call the score array holds a permutation of its original values in
ascending order, so it is unchanged only when it was already sorted. -/
theorem getBrakeProb_sc_after (sc : List ℚ) :
    (sortedScores sc).Perm sc ∧ (sortedScores sc).Sorted (fun a b => a ≤ b) := by
  constructor
  · have h1 := List.perm_insertionSort pairLe (sc.zip (List.range sc.length))
    have h2 := h1.map Prod.fst
    rwa [List.map_fst_zip sc (List.range sc.length) (by simp)] at h2
  · have h3 := List.sorted_insertionSort pairLe (sc.zip (List.range sc.length))
    exact List.Pairwise.map Prod.fst (fun a b hab => hab) h3

/-!
### Helper lemmas about `heatMap`
-/

/-- The cell index of an in-bounds observation is a valid flat index. -/
theorem cellOf_lt (o : ℤ × ℤ × ℚ) (h : inBounds o) : cellOf o < nrow * ncol := by
  unfold inBounds at h
  unfold cellOf
  simp only [nrow, ncol] at *
  omega

/-- Updating an accumulator entry by adding `b` adds `b` to its sum over
any index set containing the updated index. -/
theorem sum_update_add {β : Type} [AddCommMonoid β] (s : Finset ℕ) (f : ℕ → β) (q : ℕ)
    (b : β) (h : q ∈ s) :
    ∑ x in s, Function.update f q (f q + b) x = (∑ x in s, f x) + b := by
  rw [Finset.sum_update_of_mem h, ← Finset.add_sum_erase s f h, Finset.erase_eq]
  abel

/-- The `hit` counter counts in-bounds observations, and together with
`missed` it accounts for every observation. -/
theorem heatLoop_hit_missed (obs : List (ℤ × ℤ × ℚ)) (s : HeatState) :
    (obs.foldl heatStep s).hit = s.hit + obs.countP (fun o => decide (inBounds o))
    ∧ (obs.foldl heatStep s).hit + (obs.foldl heatStep s).missed
        = s.hit + s.missed + obs.length := by
  induction obs generalizing s with
  | nil => simp
  | cons o l ih =>
    rw [List.foldl_cons]
    obtain ⟨ih1, ih2⟩ := ih (heatStep s o)
    rw [List.countP_cons, List.length_cons, ih2, ih1]
    by_cases h : inBounds o
    · simp [heatStep, h]
      omega
    · simp [heatStep, h]
      omega

/-- The sum of the `denom` array over all cells grows by one per
in-bounds observation. -/
theorem heatLoop_denom_sum (obs : List (ℤ × ℤ × ℚ)) (s : HeatState) :
    ∑ q in Finset.range (nrow * ncol), (obs.foldl heatStep s).denom q
      = (∑ q in Finset.range (nrow * ncol), s.denom q)
        + obs.countP (fun o => decide (inBounds o)) := by
  induction obs generalizing s with
  | nil => simp
  | cons o l ih =>
    rw [List.foldl_cons, ih (heatStep s o), List.countP_cons]
    by_cases h : inBounds o
    · have hq : cellOf o ∈ Finset.range (nrow * ncol) :=
        Finset.mem_range.mpr (cellOf_lt o h)
      simp only [heatStep, if_pos h]
      rw [sum_update_add _ _ _ _ hq]
      simp [h]
      omega
    · simp [heatStep, h]

/-- The sum of the `num` array over all cells grows by one per in-bounds
observation whose outcome is `1`. -/
theorem heatLoop_num_sum (obs : List (ℤ × ℤ × ℚ)) (s : HeatState) :
    ∑ q in Finset.range (nrow * ncol), (obs.foldl heatStep s).num q
      = (∑ q in Finset.range (nrow * ncol), s.num q)
        + (obs.countP (fun o => decide (inBounds o ∧ o.2.2 = 1)) : ℚ) := by
  induction obs generalizing s with
  | nil => simp
  | cons o l ih =>
    rw [List.foldl_cons, ih (heatStep s o), List.countP_cons]
    by_cases h : inBounds o
    · have hq : cellOf o ∈ Finset.range (nrow * ncol) :=
        Finset.mem_range.mpr (cellOf_lt o h)
      by_cases hy : o.2.2 = 1
      · simp only [heatStep, if_pos h, if_pos hy]
        rw [sum_update_add _ _ _ _ hq]
        simp [h, hy]
        ring
      · simp only [heatStep, if_pos h, if_neg hy]
        simp [h, hy]
    · simp [heatStep, h]

/-- Invariant of the `heatMap` loop: every `num` entry is nonnegative and
bounded by the corresponding `denom` entry. -/
theorem heatLoop_num_le_denom (obs : List (ℤ × ℤ × ℚ)) (s : HeatState)
    (hs : ∀ q, 0 ≤ s.num q ∧ s.num q ≤ (s.denom q : ℚ)) :
    ∀ q, 0 ≤ (obs.foldl heatStep s).num q
      ∧ (obs.foldl heatStep s).num q ≤ ((obs.foldl heatStep s).denom q : ℚ) := by
  induction obs generalizing s with
  | nil => exact hs
  | cons o l ih =>
    rw [List.foldl_cons]
    apply ih
    intro q
    by_cases h : inBounds o
    · simp only [heatStep, if_pos h]
      by_cases hq : q = cellOf o
      · subst hq
        by_cases hy : o.2.2 = 1
        · rw [if_pos hy]
          simp only [Function.update_same]
          obtain ⟨hs1, hs2⟩ := hs (cellOf o)
          constructor
          · linarith
          · push_cast
            linarith
        · rw [if_neg hy]
          simp only [Function.update_same]
          obtain ⟨hs1, hs2⟩ := hs (cellOf o)
          constructor
          · exact hs1
          · push_cast
            linarith
      · rw [Function.update_noteq hq]
        by_cases hy : o.2.2 = 1
        · rw [if_pos hy, Function.update_noteq hq]
          exact hs q
        · rw [if_neg hy]
          exact hs q
    · simp only [heatStep, if_neg h]
      exact hs q

/-!
### Claim C9
-/

/-- C9: every in-bounds observation lands in exactly one cell, so the sum
of `denom` over all cells equals the `hit` counter; `hit + missed`
accounts for every observation; and the sum of `num` over all cells
counts the in-bounds observations with outcome `1`. -/
theorem heatMap_conservation (obs : List (ℤ × ℤ × ℚ)) :
    (∑ q in Finset.range (nrow * ncol), (heatLoop obs).denom q) = (heatLoop obs).hit
    ∧ (heatLoop obs).hit + (heatLoop obs).missed = obs.length
    ∧ (∑ q in Finset.range (nrow * ncol), (heatLoop obs).num q)
        = (obs.countP (fun o => decide (inBounds o ∧ o.2.2 = 1)) : ℚ) := by
  obtain ⟨h1, h2⟩ := heatLoop_hit_missed obs heatInit
  refine ⟨?_, ?_, ?_⟩
  · rw [heatLoop, heatLoop_denom_sum, h1]
    simp [heatInit]
  · rw [heatLoop] at *
    simpa [heatInit] using h2
  · rw [heatLoop, heatLoop_num_sum]
    simp [heatInit]

/-!
### Claim C5
-/

/-- C5: a cell receives the transformed rate `(num/denom)^0.1` exactly
when its count strictly exceeds `minCount`; every other cell, including
those with `denom = minCount` exactly, receives the sentinel `-1`. -/
theorem heatMap_threshold (obs : List (ℤ × ℤ × ℚ)) (q : ℕ) (_hq : q < nrow * ncol) :
    (minCount < (heatLoop obs).denom q →
      heatRat obs q
        = Real.rpow (((heatLoop obs).num q : ℝ) / ((heatLoop obs).denom q : ℝ)) 0.1)
    ∧ ((heatLoop obs).denom q ≤ minCount → heatRat obs q = -1) := by
  constructor
  · intro h
    rw [heatRat, if_pos h]
  · intro h
    rw [heatRat, if_neg (not_lt.mpr h)]

set_option maxRecDepth 40000 in
/-- C5 witness: one hundred observations in cell `0` put its count exactly
at `minCount`, and the cell receives the sentinel `-1` (strict threshold). -/
theorem heatMap_threshold_witness :
    heatRat (List.replicate 100 ((0 : ℤ), (0 : ℤ), (1 : ℚ))) 0 = -1 :=
  (heatMap_threshold (List.replicate 100 ((0 : ℤ), (0 : ℤ), (1 : ℚ))) 0 (by decide)).2
    (by decide)

/-!
### Claim C10
-/

/-- C10: at the end of the accumulation loop every cell satisfies
`num ≤ denom` (`num` is only incremented together with `denom`), so every
entry of the returned `rat` array is either the sentinel `-1` or a value
in `[0, 1]`. -/
theorem heatMap_rat_range (obs : List (ℤ × ℤ × ℚ)) (q : ℕ) :
    (heatLoop obs).num q ≤ ((heatLoop obs).denom q : ℚ)
    ∧ (heatRat obs q = -1 ∨ (0 ≤ heatRat obs q ∧ heatRat obs q ≤ 1)) := by
  have h := heatLoop_num_le_denom obs heatInit (by intro q; simp [heatInit]) q
  refine ⟨h.2, ?_⟩
  by_cases hd : minCount < (heatLoop obs).denom q
  · right
    rw [heatRat, if_pos hd]
    have hdpos : (0 : ℝ) < ((heatLoop obs).denom q : ℝ) := by
      have : 0 < (heatLoop obs).denom q := lt_of_le_of_lt (Nat.zero_le _) hd
      exact_mod_cast this
    have hx0 : (0 : ℝ) ≤ ((heatLoop obs).num q : ℝ) / ((heatLoop obs).denom q : ℝ) := by
      apply div_nonneg _ hdpos.le
      exact_mod_cast h.1
    have hx1 : ((heatLoop obs).num q : ℝ) / ((heatLoop obs).denom q : ℝ) ≤ 1 := by
      rw [div_le_one hdpos]
      exact_mod_cast h.2
    exact ⟨Real.rpow_nonneg hx0 _, Real.rpow_le_one hx0 hx1 (by norm_num)⟩
  · left
    rw [heatRat, if_neg hd]

/-!
### Helper lemmas about `standardizeCellMeans`
-/

/-- Dividing each guarded summand by a constant divides the guarded sum. -/
theorem sum_ite_div (s : Finset ℕ) (P : ℕ → Prop) [DecidablePred P] (f : ℕ → ℝ) (d : ℝ) :
    ∑ q in s, (if P q then f q / d else 0) = (∑ q in s, if P q then f q else 0) / d := by
  rw [Finset.sum_div]
  refine Finset.sum_congr rfl fun q _ => ?_
  by_cases h : P q
  · rw [if_pos h, if_pos h]
  · rw [if_neg h, if_neg h, zero_div]

/-- After the centering step, the count-weighted sum of the populated
cells' entries vanishes in every dimension. -/
theorem centered_weighted_sum (cmn : ℕ → ℕ → ℝ) (cmc : ℕ → ℕ) (M k : ℕ)
    (hW : popWeight cmc M ≠ 0) :
    ∑ q in Finset.range M,
      (if 0 < cmc q then (cmc q : ℝ) * centerCellMeans cmn cmc M q k else 0) = 0 := by
  have hsplit : ∀ q ∈ Finset.range M,
      (if 0 < cmc q then (cmc q : ℝ) * centerCellMeans cmn cmc M q k else 0)
        = (if 0 < cmc q then (cmc q : ℝ) * cmn q k else 0)
          - (if 0 < cmc q then (cmc q : ℝ) else 0) * globalMean cmn cmc M k := by
    intro q _
    by_cases h : 0 < cmc q
    · rw [if_pos h, if_pos h, if_pos h, centerCellMeans]
      ring
    · rw [if_neg h, if_neg h, if_neg h]
      ring
  rw [Finset.sum_congr rfl hsplit, Finset.sum_sub_distrib, ← Finset.sum_mul]
  have h2 : ∑ q in Finset.range M, (if 0 < cmc q then (cmc q : ℝ) else 0) = popWeight cmc M :=
    rfl
  rw [h2, globalMean, mul_comm, div_mul_cancel₀ _ hW, sub_self]

/-!
### Claim C2
-/

/-- C2 counterexample: a zero-count cell whose mean vector is `0` is
modified by the centering step.  With one populated cell (count `1`,
value `2`) and one empty cell, the centering loop runs over **every**
cell and rewrites the empty cell's entry from `0` to `-2`. -/
theorem centerCellMeans_touches_zero_count_cell :
    centerCellMeans (fun q _ => if q = 1 then 2 else 0) (fun q => if q = 1 then 1 else 0) 2 0 0
        = -2
    ∧ (fun (q : ℕ) (_ : ℕ) => if q = 1 then (2 : ℝ) else 0) 0 0 = 0
    ∧ (fun q : ℕ => if q = 1 then 1 else 0) 0 = 0
    ∧ (-2 : ℝ) ≠ 0 := by
  refine ⟨?_, by norm_num, by norm_num, by norm_num⟩
  norm_num [centerCellMeans, globalMean, popWeight, Finset.sum_range_succ]

/-- C2 (amended): the centering step subtracts the count-weighted global
mean of the **populated** cells from **every** cell's vector, zero-count
cells included; a zero-count cell's vector is left unchanged only in the
degenerate situation where that global mean is zero. -/
theorem centerCellMeans_zero_count (cmn : ℕ → ℕ → ℝ) (cmc : ℕ → ℕ) (M q k : ℕ)
    (_h : cmc q = 0) :
    centerCellMeans cmn cmc M q k = cmn q k - globalMean cmn cmc M k
    ∧ (centerCellMeans cmn cmc M q k = cmn q k ↔ globalMean cmn cmc M k = 0) := by
  refine ⟨rfl, ?_⟩
  unfold centerCellMeans
  exact sub_eq_self

/-- C2 witness: the amended statement instantiated at a concrete
zero-count cell. -/
theorem centerCellMeans_zero_count_witness :
    centerCellMeans (fun _ _ => (0 : ℝ)) (fun _ => 0) 1 0 0
        = (fun _ _ => (0 : ℝ)) 0 0 - globalMean (fun _ _ => (0 : ℝ)) (fun _ => 0) 1 0
    ∧ (centerCellMeans (fun _ _ => (0 : ℝ)) (fun _ => 0) 1 0 0 = (fun _ _ => (0 : ℝ)) 0 0
        ↔ globalMean (fun _ _ => (0 : ℝ)) (fun _ => 0) 1 0 = 0) :=
  centerCellMeans_zero_count (fun _ _ => (0 : ℝ)) (fun _ => 0) 1 0 0 rfl

/-!
### Claim C6
-/

/-- C6: restricted to populated cells and under exact arithmetic, after
`standardizeCellMeans` the count-weighted mean is `0` and, in every
dimension whose weighted variance of the centered means is strictly
positive, the count-weighted variance is `1`. -/
theorem standardizeCellMeans_moments (cmn : ℕ → ℕ → ℝ) (cmc : ℕ → ℕ) (M k : ℕ)
    (hW : 0 < popWeight cmc M)
    (hv : 0 < globalVar (centerCellMeans cmn cmc M) cmc M k) :
    (∑ q in Finset.range M,
        if 0 < cmc q then (cmc q : ℝ) * standardizeCellMeans cmn cmc M q k else 0)
      / popWeight cmc M = 0
    ∧ (∑ q in Finset.range M,
        if 0 < cmc q then (cmc q : ℝ) * standardizeCellMeans cmn cmc M q k ^ 2 else 0)
      / popWeight cmc M = 1 := by
  have hstd : ∀ q, standardizeCellMeans cmn cmc M q k
      = centerCellMeans cmn cmc M q k
        / Real.sqrt (globalVar (centerCellMeans cmn cmc M) cmc M k) := fun q => rfl
  constructor
  · have h1 : ∀ q ∈ Finset.range M,
        (if 0 < cmc q then (cmc q : ℝ) * standardizeCellMeans cmn cmc M q k else 0)
          = (if 0 < cmc q then
              ((cmc q : ℝ) * centerCellMeans cmn cmc M q k)
                / Real.sqrt (globalVar (centerCellMeans cmn cmc M) cmc M k) else 0) := by
      intro q _
      rw [hstd q]
      by_cases h : 0 < cmc q
      · rw [if_pos h, if_pos h, mul_div_assoc]
      · rw [if_neg h, if_neg h]
    rw [Finset.sum_congr rfl h1, sum_ite_div,
      centered_weighted_sum cmn cmc M k hW.ne', zero_div, zero_div]
  · have h2 : ∀ q ∈ Finset.range M,
        (if 0 < cmc q then (cmc q : ℝ) * standardizeCellMeans cmn cmc M q k ^ 2 else 0)
          = (if 0 < cmc q then
              ((cmc q : ℝ) * centerCellMeans cmn cmc M q k ^ 2)
                / globalVar (centerCellMeans cmn cmc M) cmc M k else 0) := by
      intro q _
      rw [hstd q]
      by_cases h : 0 < cmc q
      · rw [if_pos h, if_pos h, div_pow, Real.sq_sqrt hv.le, mul_div_assoc]
      · rw [if_neg h, if_neg h]
    rw [Finset.sum_congr rfl h2, sum_ite_div]
    have h3 : ∑ q in Finset.range M,
        (if 0 < cmc q then (cmc q : ℝ) * centerCellMeans cmn cmc M q k ^ 2 else 0)
          = globalVar (centerCellMeans cmn cmc M) cmc M k * popWeight cmc M := by
      rw [globalVar, div_mul_cancel₀ _ hW.ne']
    rw [h3, mul_comm, mul_div_assoc, div_self hv.ne', mul_one, div_self hW.ne']

/-- C6 witness: two populated cells of count `1` with entries `0` and `2`
(weighted mean `1`, centered entries `∓1`, weighted variance `1`). -/
theorem standardizeCellMeans_moments_witness :
    (∑ q in Finset.range 2,
        if 0 < (fun _ : ℕ => 1) q then
          (((fun _ : ℕ => 1) q : ℕ) : ℝ)
            * standardizeCellMeans (fun q _ => if q = 0 then 0 else 2) (fun _ => 1) 2 q 0
        else 0)
      / popWeight (fun _ => 1) 2 = 0
    ∧ (∑ q in Finset.range 2,
        if 0 < (fun _ : ℕ => 1) q then
          (((fun _ : ℕ => 1) q : ℕ) : ℝ)
            * standardizeCellMeans (fun q _ => if q = 0 then 0 else 2) (fun _ => 1) 2 q 0 ^ 2
        else 0)
      / popWeight (fun _ => 1) 2 = 1 :=
  standardizeCellMeans_moments (fun q _ => if q = 0 then 0 else 2) (fun _ => 1) 2 0
    (by norm_num [popWeight, Finset.sum_range_succ])
    (by norm_num [globalVar, centerCellMeans, globalMean, popWeight, Finset.sum_range_succ])

/-!
### Helper lemmas about `cormat` and `standardize`
-/

/-- Row and column recovered from a flat row-major index. -/
theorem flat_div_mod (p i j : ℕ) (hj : j < p) :
    (i * p + j) / p = i ∧ (i * p + j) % p = j := by
  have hp : 0 < p := by omega
  constructor
  · rw [Nat.mul_comm i p, Nat.mul_add_div hp, Nat.div_eq_of_lt hj, Nat.add_zero]
  · rw [Nat.mul_comm i p, Nat.mul_add_mod, Nat.mod_eq_of_lt hj]

/-- Entry `(i,j)` of `cormat`, written with the recovered row and column. -/
theorem cormat_apply (x : ℕ → ℝ) (p i j : ℕ) (_hi : i < p) (hj : j < p) :
    cormat x p (i * p + j)
      = x (i * p + j) / (Real.sqrt (x (i * p + i)) * Real.sqrt (x (j * p + j))) := by
  obtain ⟨hdiv, hmod⟩ := flat_div_mod p i j hj
  simp only [cormat, hdiv, hmod]

/-- Summing a function against a vector supported on two distinct indices. -/
theorem two_point_sum (p i j : ℕ) (hi : i ∈ Finset.range p) (hj : j ∈ Finset.range p)
    (hij : i ≠ j) (t s : ℝ) (g : ℕ → ℝ) :
    ∑ l in Finset.range p, (if l = i then t else if l = j then s else 0) * g l
      = t * g i + s * g j := by
  have hsplit : ∀ l ∈ Finset.range p,
      (if l = i then t else if l = j then s else 0) * g l
        = (if l = i then t * g l else 0) + (if l = j then s * g l else 0) := by
    intro l _
    by_cases h1 : l = i
    · subst h1
      simp [hij]
    · by_cases h2 : l = j
      · subst h2
        simp [h1]
      · simp [h1, h2]
  rw [Finset.sum_congr rfl hsplit, Finset.sum_add_distrib,
    Finset.sum_ite_eq' (Finset.range p) i (fun l => t * g l),
    Finset.sum_ite_eq' (Finset.range p) j (fun l => s * g l),
    if_pos hi, if_pos hj]

/-- The quadratic form of a vector supported on two distinct coordinates. -/
theorem quadForm_two_point (p : ℕ) (x : ℕ → ℝ) (i j : ℕ) (hi : i < p) (hj : j < p)
    (hij : i ≠ j) (t s : ℝ) :
    quadForm p (fun k => if k = i then t else if k = j then s else 0) x
      = t * t * x (i * p + i) + t * s * x (i * p + j)
        + s * t * x (j * p + i) + s * s * x (j * p + j) := by
  rw [quadForm]
  have hinner : ∀ k ∈ Finset.range p,
      ∑ l in Finset.range p,
        (if k = i then t else if k = j then s else 0)
          * (if l = i then t else if l = j then s else 0) * x (k * p + l)
        = (if k = i then t else if k = j then s else 0)
          * (t * x (k * p + i) + s * x (k * p + j)) := by
    intro k _
    have hassoc : ∀ l ∈ Finset.range p,
        (if k = i then t else if k = j then s else 0)
            * (if l = i then t else if l = j then s else 0) * x (k * p + l)
          = (if k = i then t else if k = j then s else 0)
            * ((if l = i then t else if l = j then s else 0) * x (k * p + l)) := by
      intro l _
      rw [mul_assoc]
    rw [Finset.sum_congr rfl hassoc, ← Finset.mul_sum,
      two_point_sum p i j (Finset.mem_range.mpr hi) (Finset.mem_range.mpr hj) hij t s
        (fun l => x (k * p + l))]
  rw [Finset.sum_congr rfl hinner,
    two_point_sum p i j (Finset.mem_range.mpr hi) (Finset.mem_range.mpr hj) hij t s
      (fun k => t * x (k * p + i) + s * x (k * p + j))]
  ring

/-- Cauchy–Schwarz for an entry of a symmetric positive semi-definite
matrix: the square of an off-diagonal entry is bounded by the product of
the diagonal entries. -/
theorem psd_offdiag_sq_le (p : ℕ) (x : ℕ → ℝ) (i j : ℕ) (hi : i < p) (hj : j < p)
    (hij : i ≠ j) (hsym : x (i * p + j) = x (j * p + i))
    (hpsd : ∀ v : ℕ → ℝ, 0 ≤ quadForm p v x) (hjj : 0 < x (j * p + j)) :
    x (i * p + j) ^ 2 ≤ x (i * p + i) * x (j * p + j) := by
  have h := hpsd (fun k => if k = i then x (j * p + j) else if k = j then -x (i * p + j) else 0)
  rw [quadForm_two_point p x i j hi hj hij (x (j * p + j)) (-x (i * p + j)), ← hsym] at h
  nlinarith [h, hjj]

/-!
### Claim C7
-/

/-- C7: for a matrix with strictly positive diagonal, `cormat` divides
entry `(i,j)` by `sqrt(x_ii * x_jj)`, every diagonal entry of the result
is exactly `1` under exact arithmetic, and when the input is in addition
symmetric positive semi-definite, every entry of the result lies in
`[-1, 1]`. -/
theorem cormat_correlation (x : ℕ → ℝ) (p : ℕ)
    (hdiag : ∀ i, i < p → 0 < x (i * p + i)) :
    (∀ i j, i < p → j < p →
      cormat x p (i * p + j) = x (i * p + j) / Real.sqrt (x (i * p + i) * x (j * p + j)))
    ∧ (∀ i, i < p → cormat x p (i * p + i) = 1)
    ∧ ((∀ i j, i < p → j < p → x (i * p + j) = x (j * p + i)) →
       (∀ v : ℕ → ℝ, 0 ≤ quadForm p v x) →
       ∀ i j, i < p → j < p →
         -1 ≤ cormat x p (i * p + j) ∧ cormat x p (i * p + j) ≤ 1) := by
  have part1 : ∀ i j, i < p → j < p →
      cormat x p (i * p + j) = x (i * p + j) / Real.sqrt (x (i * p + i) * x (j * p + j)) := by
    intro i j hi hj
    rw [cormat_apply x p i j hi hj, Real.sqrt_mul (hdiag i hi).le]
  have part2 : ∀ i, i < p → cormat x p (i * p + i) = 1 := by
    intro i hi
    rw [cormat_apply x p i i hi hi, Real.mul_self_sqrt (hdiag i hi).le,
      div_self (hdiag i hi).ne']
  refine ⟨part1, part2, ?_⟩
  intro hsym hpsd i j hi hj
  by_cases hij : i = j
  · subst hij
    rw [part2 i hi]
    norm_num
  · have hsq := psd_offdiag_sq_le p x i j hi hj hij (hsym i j hi hj) hpsd (hdiag j hj)
    have hpos : 0 < Real.sqrt (x (i * p + i) * x (j * p + j)) :=
      Real.sqrt_pos.mpr (mul_pos (hdiag i hi) (hdiag j hj))
    have habs : |x (i * p + j)| ≤ Real.sqrt (x (i * p + i) * x (j * p + j)) := by
      calc |x (i * p + j)| = Real.sqrt (x (i * p + j) ^ 2) := (Real.sqrt_sq_eq_abs _).symm
        _ ≤ Real.sqrt (x (i * p + i) * x (j * p + j)) := Real.sqrt_le_sqrt hsq
    have hbound : |cormat x p (i * p + j)| ≤ 1 := by
      rw [part1 i j hi hj, abs_div, abs_of_pos hpos, div_le_one hpos]
      exact habs
    exact abs_le.mp hbound

/-- C7 witness: the `1 × 1` matrix with entry `4` has positive diagonal;
its correlation matrix has diagonal `1`. -/
theorem cormat_correlation_witness :
    (∀ i j, i < 1 → j < 1 →
      cormat (fun _ => (4 : ℝ)) 1 (i * 1 + j) = 4 / Real.sqrt (4 * 4))
    ∧ (∀ i, i < 1 → cormat (fun _ => (4 : ℝ)) 1 (i * 1 + i) = 1)
    ∧ ((∀ i j, i < 1 → j < 1 → (4 : ℝ) = 4) →
       (∀ v : ℕ → ℝ, 0 ≤ quadForm 1 v (fun _ => (4 : ℝ))) →
       ∀ i j, i < 1 → j < 1 →
         -1 ≤ cormat (fun _ => (4 : ℝ)) 1 (i * 1 + j)
         ∧ cormat (fun _ => (4 : ℝ)) 1 (i * 1 + j) ≤ 1) :=
  cormat_correlation (fun _ => (4 : ℝ)) 1 (fun i _ => by norm_num)

/-!
### Claim C8
-/

/-- Scaling the vector scales the quadratic form quadratically. -/
theorem quadForm_smul (p : ℕ) (c : ℝ) (vec mat : ℕ → ℝ) :
    quadForm p (fun i => c * vec i) mat = c ^ 2 * quadForm p vec mat := by
  rw [quadForm, quadForm, Finset.mul_sum]
  refine Finset.sum_congr rfl fun i _ => ?_
  rw [Finset.mul_sum]
  refine Finset.sum_congr rfl fun j _ => ?_
  ring

/-- For a symmetric matrix the lower-triangle accumulation of
`standardize` computes exactly the full quadratic form. -/
theorem quadLower_eq_quadForm (p : ℕ) (vec mat : ℕ → ℝ)
    (hsym : ∀ i j, i < p → j < p → mat (i * p + j) = mat (j * p + i)) :
    quadLower p vec mat = quadForm p vec mat := by
  rw [quadLower, quadForm]
  have hrowL : ∀ i ∈ Finset.range p,
      ∑ j in Finset.range (i + 1), (if j = i then 1 else 2) * (vec i * vec j * mat (i * p + j))
        = vec i * vec i * mat (i * p + i)
          + 2 * ∑ j in Finset.range i, vec i * vec j * mat (i * p + j) := by
    intro i _
    rw [Finset.sum_range_succ, if_pos rfl, one_mul]
    have hlow : ∀ j ∈ Finset.range i,
        (if j = i then (1 : ℝ) else 2) * (vec i * vec j * mat (i * p + j))
          = 2 * (vec i * vec j * mat (i * p + j)) := by
      intro j hj
      rw [Finset.mem_range] at hj
      rw [if_neg (by omega)]
    rw [Finset.sum_congr rfl hlow, ← Finset.mul_sum]
    ring
  have hrowR : ∀ i ∈ Finset.range p,
      ∑ j in Finset.range p, vec i * vec j * mat (i * p + j)
        = (∑ j in Finset.range (i + 1), vec i * vec j * mat (i * p + j))
          + ∑ j in Finset.Ico (i + 1) p, vec i * vec j * mat (i * p + j) := by
    intro i hi
    rw [Finset.mem_range] at hi
    rw [Finset.range_eq_Ico]
    exact (Finset.sum_Ico_consecutive _ (Nat.zero_le (i + 1)) (by omega)).symm
  rw [Finset.sum_congr rfl hrowL, Finset.sum_congr rfl hrowR, Finset.sum_add_distrib,
    Finset.sum_add_distrib]
  have hswap : ∑ i in Finset.range p, ∑ j in Finset.Ico (i + 1) p,
        vec i * vec j * mat (i * p + j)
      = ∑ j in Finset.range p, ∑ i in Finset.range j, vec i * vec j * mat (i * p + j) := by
    refine Finset.sum_comm' ?_
    intro a b
    rw [Finset.mem_range, Finset.mem_Ico, Finset.mem_range, Finset.mem_range]
    omega
  rw [hswap]
  have hflip : ∀ i ∈ Finset.range p,
      ∑ j in Finset.range i, vec j * vec i * mat (j * p + i)
        = ∑ j in Finset.range i, vec i * vec j * mat (i * p + j) := by
    intro i hi
    rw [Finset.mem_range] at hi
    refine Finset.sum_congr rfl fun j hj => ?_
    rw [Finset.mem_range] at hj
    rw [hsym j i (by omega) hi]
    ring
  rw [Finset.sum_congr rfl hflip]
  have hmerge : ∀ i ∈ Finset.range p,
      ∑ j in Finset.range (i + 1), vec i * vec j * mat (i * p + j)
        = (∑ j in Finset.range i, vec i * vec j * mat (i * p + j))
          + vec i * vec i * mat (i * p + i) := by
    intro i _
    rw [Finset.sum_range_succ]
  rw [Finset.sum_congr rfl hmerge, Finset.sum_add_distrib]
  have h2S : ∀ i ∈ Finset.range p,
      2 * ∑ j in Finset.range i, vec i * vec j * mat (i * p + j)
        = (∑ j in Finset.range i, vec i * vec j * mat (i * p + j))
          + ∑ j in Finset.range i, vec i * vec j * mat (i * p + j) := by
    intro i _
    rw [two_mul]
  rw [Finset.sum_congr rfl h2S, Finset.sum_add_distrib]
  ring

/-- C8 counterexample: for a non-symmetric matrix the full quadratic form
(used by the claim) can be strictly positive while the lower-triangle
accumulation actually computed by `standardize` vanishes; the normalized
vector then has quadratic form `0`, not `1`. -/
theorem standardize_not_idempotent_asym :
    0 < quadForm 2 (fun _ => 1) (fun idx => if idx = 1 then 2 else 0)
    ∧ quadForm 2 (standardize 2 (fun _ => 1) (fun idx => if idx = 1 then 2 else 0))
        (fun idx => if idx = 1 then 2 else 0) ≠ 1 := by
  constructor
  · norm_num [quadForm, Finset.sum_range_succ]
  · norm_num [quadForm, quadLower, standardize, Finset.sum_range_succ, Real.sqrt_zero]

/-- C8 (amended): for a **symmetric** matrix whose quadratic form at `vec`
is strictly positive, one application of `standardize` gives a vector of
quadratic form exactly `1`, and a second application leaves the vector
unchanged. -/
theorem standardize_idempotent_sym (p : ℕ) (vec mat : ℕ → ℝ)
    (hsym : ∀ i j, i < p → j < p → mat (i * p + j) = mat (j * p + i))
    (hq : 0 < quadForm p vec mat) :
    quadForm p (standardize p vec mat) mat = 1
    ∧ standardize p (standardize p vec mat) mat = standardize p vec mat := by
  have hL : quadLower p vec mat = quadForm p vec mat := quadLower_eq_quadForm p vec mat hsym
  have h1 : quadForm p (standardize p vec mat) mat = 1 := by
    have hfun : standardize p vec mat
        = fun i => (1 / Real.sqrt (quadForm p vec mat)) * vec i := by
      funext i
      rw [standardize, hL]
    rw [hfun, quadForm_smul, div_pow, one_pow, Real.sq_sqrt hq.le, one_div,
      inv_mul_cancel₀ hq.ne']
  refine ⟨h1, ?_⟩
  have h2 : quadLower p (standardize p vec mat) mat = 1 := by
    rw [quadLower_eq_quadForm p _ mat hsym, h1]
  funext i
  show (1 / Real.sqrt (quadLower p (standardize p vec mat) mat)) * standardize p vec mat i
      = standardize p vec mat i
  rw [h2, Real.sqrt_one]
  norm_num

/-- C8 witness: `p = 1`, `vec = (2)`, `mat = (1)`: the quadratic form is
`4 > 0`, and after normalization it is `1` and renormalizing changes
nothing. -/
theorem standardize_idempotent_sym_witness :
    quadForm 1 (standardize 1 (fun _ => 2) (fun _ => 1)) (fun _ => 1) = 1
    ∧ standardize 1 (standardize 1 (fun _ => 2) (fun _ => 1)) (fun _ => 1)
        = standardize 1 (fun _ => 2) (fun _ => 1) :=
  standardize_idempotent_sym 1 (fun _ => 2) (fun _ => 1) (fun _ _ _ _ => rfl)
    (by norm_num [quadForm, Finset.sum_range_succ])

end Ivbss
